import Mathlib

/-
Verification of the pebble process pool coordinator
(`pebble/process/pool.py`) against its natural-language specification.

The Python source is shallowly embedded: the mutable task table
(a Python dict keyed by `task.number`) becomes an association list with
dict semantics, side effects (`task.set_results`, the completion
callback, `stop_worker` requests, channel sends) become explicit event
lists returned alongside the new state, and wall-clock time is an
explicit `now : Int` parameter.
-/

namespace Pebble

/-- The payload of a task: the function plus its positional and keyword
arguments.  Opaque to the coordinator; the worker unpacks it as
`function, args, kwargs = task` (`execute_next_task`). -/
structure Payload where
  function : Nat
  args : List Nat
  kwargs : List (Nat × Nat)
deriving DecidableEq, Repr

/-- The value held by a task handle's `_metadata` scratch slot.  The
submission facade stores the payload there (the worker unpacks
`NewTask.payload` as `(function, args, kwargs)`); `task_start`
overwrites it with the claiming worker's pid. -/
inductive Metadata where
  | empty
  | payload (p : Payload)
  | worker (pid : Nat)
deriving DecidableEq, Repr

/-- Terminal outcomes delivered through `task.set_results`. -/
inductive Outcome where
  | value (v : Nat)
  | error (e : Nat)
  | timeoutError
  | taskCancelled
  | processExpired (code : Int)
deriving DecidableEq, Repr

/-- Modelled from the spec: the external Task handle (spec section 6;
its class is not under src/).  Fields consumed by the core: `number`,
`payload`, `timeout` (0 = none), `cancelled`, `started`, and the
scratch slots `_metadata` (here `metadata`) and `_timestamp`
(here `timestamp`). -/
structure Task where
  number : Nat
  payload : Payload
  timeout : Nat
  cancelled : Bool
  started : Bool
  metadata : Metadata
  timestamp : Int
deriving DecidableEq, Repr

/-- Modelled from the spec: creation of a Task handle by the submission
facade (`BasePool`, not under src/).  The payload is stashed in the
`_metadata` scratch slot, which is what `WorkerManager.dispatch` sends
and what the worker unpacks as `(function, args, kwargs)`. -/
def submittedTask (number : Nat) (payload : Payload) (timeout : Nat) : Task :=
  { number := number, payload := payload, timeout := timeout,
    cancelled := false, started := false,
    metadata := Metadata.payload payload, timestamp := 0 }

/-- Messages travelling on the IPC channel (the namedtuples of
`pool.py`), plus the synthetic `NoMessage`. -/
inductive Message where
  | NoMessage
  | NewTask (id : Nat) (payload : Metadata)
  | Results (task : Nat) (results : Outcome)
  | Acknowledgement (worker : Nat) (task : Nat)
deriving DecidableEq, Repr

/-- The TaskManager's `self.tasks` dict, keyed by `task.number`. -/
abbrev TaskTable := List (Nat × Task)

/-- Python `dict.__getitem__` as an option: first binding of the key. -/
def dictGet (m : TaskTable) (k : Nat) : Option Task :=
  match m with
  | [] => Option.none
  | (k₀, v) :: rest => if k₀ = k then some v else dictGet rest k

/-- Python `dict.pop`: removes the binding of `k` and returns it;
`none` models the `KeyError` case. -/
def dictPop (m : TaskTable) (k : Nat) : Option (Task × TaskTable) :=
  match m with
  | [] => Option.none
  | (k₀, v) :: rest =>
    if k₀ = k then some (v, rest)
    else
      match dictPop rest k with
      | Option.none => Option.none
      | some (t, rest₀) => some (t, (k₀, v) :: rest₀)

/-- Python `dict.__setitem__`: replace in place or append. -/
def dictSet (m : TaskTable) (k : Nat) (v : Task) : TaskTable :=
  match m with
  | [] => [(k, v)]
  | (k₀, v₀) :: rest =>
    if k₀ = k then (k, v) :: rest else (k₀, v₀) :: dictSet rest k v

/-- Every binding maps the key to a task whose `number` is that key
(the table is only ever filled by `register`, which uses
`task.number` as the key). -/
def wellKeyed (m : TaskTable) : Prop :=
  ∀ p ∈ m, (Prod.snd p).number = Prod.fst p

/-- `TaskManager.register`: `self.tasks[task.number] = task`. -/
def register (tasks : TaskTable) (task : Task) : TaskTable :=
  dictSet tasks task.number task

/-- `TaskManager.task_start`: `task = self.tasks[task_id]` (raises
`KeyError` when absent, modelled by `none`), then stamps
`_metadata = worker_id` and `_timestamp = time.time()`. -/
def task_start (tasks : TaskTable) (task_id worker_id : Nat) (now : Int) :
    Option TaskTable :=
  match dictGet tasks task_id with
  | Option.none => Option.none
  | some task =>
    some (dictSet tasks task_id
      { task with metadata := Metadata.worker worker_id, timestamp := now })

/-- `TaskManager.task_done`: pop the task; on `KeyError` return
silently; otherwise `task.set_results(results)` and the completion
callback run — modelled as the returned event `(task, results)`. -/
def task_done (tasks : TaskTable) (task_id : Nat) (results : Outcome) :
    TaskTable × Option (Task × Outcome) :=
  match dictPop tasks task_id with
  | Option.none => (tasks, Option.none)
  | some (task, rest) => (rest, some (task, results))

/-- A sequence of `task_done` calls, accumulating the set_results
events in call order. -/
def task_done_list (tasks : TaskTable) (calls : List (Nat × Outcome)) :
    TaskTable × List (Task × Outcome) :=
  match calls with
  | [] => (tasks, [])
  | (id, o) :: rest =>
    let step := task_done tasks id o
    let next := task_done_list step.1 rest
    (next.1, step.2.toList ++ next.2)

/-- `TaskManager.has_timeout`: `if task.timeout and task.started:` then
`time.time() - task._timestamp > task.timeout` else `False`
(`task.timeout` is truthy iff nonzero). -/
def has_timeout (now : Int) (task : Task) : Bool :=
  if task.timeout ≠ 0 && task.started then
    decide ((task.timeout : Int) < now - task.timestamp)
  else false

/-- `TaskManager.inspect_tasks`: snapshot the values, return the
timed-out ones and the started-and-cancelled ones. -/
def inspect_tasks (now : Int) (tasks : TaskTable) :
    List Task × List Task :=
  let ts := tasks.map Prod.snd
  (ts.filter (fun t => has_timeout now t),
   ts.filter (fun t => t.started && t.cancelled))

/-- `WorkerManager.dispatch`: append
`NewTask(task.number, task._metadata)` to the pool channel. -/
def dispatch (channel : List Message) (task : Task) : List Message :=
  channel ++ [Message.NewTask task.number task.metadata]

/-- The state `PoolManager.schedule` acts on: the TaskManager table and
the pool endpoint's outbound channel. -/
structure PoolMState where
  tasks : TaskTable
  channel : List Message
deriving Repr

/-- `PoolManager.schedule`: `register(task)` then `dispatch(task)`. -/
def schedule (s : PoolMState) (task : Task) : PoolMState :=
  { tasks := register s.tasks task, channel := dispatch s.channel task }

end Pebble

namespace Pebble

/-- `pool_get_next_task`: the scheduler loop's generator.  `alive i`
is the value of `context.alive` read at the top of iteration `i`;
each queue item is either the `None` sentinel or a task.  Returns the
tasks yielded to `pool_manager.schedule` and the number of
`task_queue.task_done()` drop-marks.  An empty remaining queue models
the loop blocked in `task_queue.get()`. -/
def pool_get_next_task (alive : Nat → Bool) :
    Nat → List (Option Task) → List Task × Nat
  | _, [] => ([], 0)
  | i, item :: rest =>
    if alive i then
      match item with
      | some t =>
        if t.cancelled then
          let next := pool_get_next_task alive (i + 1) rest
          (next.1, next.2 + 1)
        else
          let next := pool_get_next_task alive (i + 1) rest
          (t :: next.1, next.2)
      | Option.none =>
        let next := pool_get_next_task alive (i + 1) rest
        (next.1, next.2 + 1)
    else ([], 0)

/-- A queue item that the scheduler loop drops with
`task_queue.task_done()`: the `None` sentinel or a cancelled task. -/
def queue_item_dropped : Option Task → Bool
  | Option.none => true
  | some t => t.cancelled

/-- `task_scheduler_loop`: `pool_manager.schedule(task)` for every task
the generator yields. -/
def task_scheduler_loop (alive : Nat → Bool) (queue : List (Option Task))
    (s : PoolMState) : PoolMState :=
  (pool_get_next_task alive 0 queue).1.foldl schedule s

/-- The spec's wording of the timed-out predicate in section 4.4:
`started ∧ timeout > 0 ∧ (now − _timestamp) > timeout`. -/
def specTimedOut (now : Int) (t : Task) : Bool :=
  t.started && decide (0 < t.timeout) &&
    decide ((t.timeout : Int) < now - t.timestamp)

/-- The spec's wording of the cancelled-running predicate in
section 4.4: `started ∧ cancelled`. -/
def specCancelledRunning (t : Task) : Bool :=
  t.started && t.cancelled

/-- Number of bindings of key `k` in the table (a Python dict always
has 0 or 1). -/
def countKey (m : TaskTable) (k : Nat) : Nat :=
  m.countP (fun p => p.1 == k)

/-- `PoolManager.update_tasks`: inspect, then `task_done` with
`TimeoutError('Timeout')` for each timed-out task, then `task_done`
with `TaskCancelled('Cancelled')` for each started-and-cancelled task,
then `stop_worker(t._metadata)` for every task in `timeout +
cancelled` — the third component lists those stop requests in order. -/
def update_tasks (now : Int) (tasks : TaskTable) :
    TaskTable × List (Task × Outcome) × List Metadata :=
  let inspected := inspect_tasks now tasks
  let step1 := task_done_list tasks
    (inspected.1.map (fun t => (t.number, Outcome.timeoutError)))
  let step2 := task_done_list step1.1
    (inspected.2.map (fun t => (t.number, Outcome.taskCancelled)))
  (step2.1, step1.2 ++ step2.2,
   (inspected.1 ++ inspected.2).map (fun t => t.metadata))

/-- A worker as the WorkerManager sees it: its pid, whether
`is_alive()` holds, and its exit code. -/
structure Worker where
  pid : Nat
  alive : Bool
  exitcode : Int
deriving DecidableEq, Repr

/-- `WorkerManager.workers`: dict pid → worker, as its list of values
in insertion order (pids are unique). -/
abbrev WorkerTable := List Worker

/-- `WorkerManager.inspect_workers`: evict every worker whose process
is not alive; report `(pid, exitcode)` for the evicted ones whose exit
was abnormal (`exitcode != 0`). -/
def inspect_workers (workers : WorkerTable) :
    WorkerTable × List (Nat × Int) :=
  let expired := workers.filter (fun w => !w.alive)
  (workers.filter (fun w => w.alive),
   (expired.filter (fun w => decide (w.exitcode ≠ 0))).map
     (fun w => (w.pid, w.exitcode)))

/-- `WorkerManager.create_workers`: spawn
`workers_number - len(self.workers)` new workers (`range` of a
non-positive number is empty); `fresh` supplies the pids of the
spawned processes. -/
def create_workers (workers_number : Nat) (fresh : List Nat)
    (workers : WorkerTable) : WorkerTable :=
  workers ++ (fresh.take (workers_number - workers.length)).map
    (fun pid => { pid := pid, alive := true, exitcode := 0 })

/-- `PoolManager.worker_id_lookup`: first task (in table order) whose
`_metadata` equals the worker id; `none` models the `LookupError`. -/
def worker_id_lookup (tasks : TaskTable) (worker_id : Nat) : Option Task :=
  (tasks.map Prod.snd).find?
    (fun t => t.metadata == Metadata.worker worker_id)

/-- `PoolManager.handle_worker_expiration`: look the dead worker's task
up; on `LookupError` return silently, otherwise `task_done` with
`ProcessExpired` carrying the exit code. -/
def handle_worker_expiration (tasks : TaskTable) (expiration : Nat × Int) :
    TaskTable × Option (Task × Outcome) :=
  match worker_id_lookup tasks expiration.1 with
  | Option.none => (tasks, Option.none)
  | some task =>
    task_done tasks task.number (Outcome.processExpired expiration.2)

/-- The `for expiration in ...inspect_workers()` loop of
`update_workers`, accumulating the set_results events. -/
def handle_expirations (tasks : TaskTable) (exps : List (Nat × Int)) :
    TaskTable × List (Task × Outcome) :=
  match exps with
  | [] => (tasks, [])
  | e :: rest =>
    let step := handle_worker_expiration tasks e
    let next := handle_expirations step.1 rest
    (next.1, step.2.toList ++ next.2)

/-- `PoolManager.update_workers`: handle every expiration reported by
`inspect_workers`, then `create_workers`. -/
def update_workers (workers_number : Nat) (fresh : List Nat)
    (tasks : TaskTable) (workers : WorkerTable) :
    TaskTable × WorkerTable × List (Task × Outcome) :=
  let inspected := inspect_workers workers
  let handled := handle_expirations tasks inspected.2
  (handled.1, create_workers workers_number fresh inspected.1, handled.2)

/-- A `NewTask` message as a worker receives it. -/
structure TaskMsg where
  id : Nat
  payload : Payload
deriving DecidableEq, Repr

/-- Observable worker-side events, in program order: taking and
releasing `channel.lock`, receiving a `NewTask`, sending a message,
and executing a payload. -/
inductive WEvent where
  | lockAcquire
  | lockRelease
  | recvTask (id : Nat)
  | send (m : Message)
  | runPayload (p : Payload)
deriving DecidableEq, Repr

/-- `task_transaction`: under `channel.lock`, `channel.recv()` the
`NewTask` and `channel.send` the `Acknowledgement(os.getpid(),
task.id)`. -/
def task_transaction_events (pid : Nat) (t : TaskMsg) : List WEvent :=
  [WEvent.lockAcquire, WEvent.recvTask t.id,
   WEvent.send (Message.Acknowledgement pid t.id), WEvent.lockRelease]

/-- One iteration of the `worker_process` loop: claim the task
(`task_transaction`), then `execute_next_task(task.payload)`, then
`send_results(channel, Results(task.id, results))`. -/
def worker_task_events (pid : Nat) (execute : Payload → Outcome)
    (t : TaskMsg) : List WEvent :=
  task_transaction_events pid t ++
    [WEvent.runPayload t.payload,
     WEvent.send (Message.Results t.id (execute t.payload))]

/-- `worker_get_next_task`: the worker claims incoming tasks until the
`task_limit` is reached (`0` = unlimited). -/
def worker_claimed (task_limit : Nat) (incoming : List TaskMsg) :
    List TaskMsg :=
  if task_limit = 0 then incoming else incoming.take task_limit

/-- `worker_process`: the worker-side event trace for the tasks this
worker claims, in program order. -/
def worker_process_events (pid : Nat) (execute : Payload → Outcome)
    (task_limit : Nat) (incoming : List TaskMsg) : List WEvent :=
  (worker_claimed task_limit incoming).flatMap
    (worker_task_events pid execute)

/-- Checks that every `Acknowledgement` send in the trace happens while
the channel lock is held; `held` is the lock state entering the
trace. -/
def acks_locked (held : Bool) : List WEvent → Bool
  | [] => true
  | WEvent.lockAcquire :: rest => acks_locked true rest
  | WEvent.lockRelease :: rest => acks_locked false rest
  | WEvent.send (Message.Acknowledgement _ _) :: rest =>
    held && acks_locked held rest
  | _ :: rest => acks_locked held rest

/-- Checks that every `Results` send for a task id is preceded in the
trace by this worker's `Acknowledgement` send for the same task id;
`acked` accumulates the ids acknowledged so far. -/
def acks_before_results (pid : Nat) (acked : List Nat) :
    List WEvent → Bool
  | [] => true
  | WEvent.send (Message.Acknowledgement w tid) :: rest =>
    acks_before_results pid (if w = pid then tid :: acked else acked) rest
  | WEvent.send (Message.Results tid _) :: rest =>
    decide (tid ∈ acked) && acks_before_results pid acked rest
  | _ :: rest => acks_before_results pid acked rest

/-- Checks that every `Results` send carries the output of a payload
executed earlier in the trace; `outs` accumulates the outputs produced
so far. -/
def results_follow_execution (execute : Payload → Outcome)
    (outs : List Outcome) : List WEvent → Bool
  | [] => true
  | WEvent.runPayload p :: rest =>
    results_follow_execution execute (execute p :: outs) rest
  | WEvent.send (Message.Results _ o) :: rest =>
    decide (o ∈ outs) && results_follow_execution execute outs rest
  | _ :: rest => results_follow_execution execute outs rest

end Pebble

namespace Pebble

theorem pool_get_next_task_alive_true (i : Nat) (queue : List (Option Task)) :
    pool_get_next_task (fun _ => true) i queue =
      ((queue.filterMap id).filter (fun t => !t.cancelled),
       queue.countP queue_item_dropped) := by
  induction queue generalizing i with
  | nil => rfl
  | cons item rest ih =>
    cases item with
    | none =>
      simp [pool_get_next_task, ih (i + 1), queue_item_dropped,
        List.countP_cons]
    | some t =>
      by_cases hc : t.cancelled
      · simp [pool_get_next_task, ih (i + 1), queue_item_dropped, hc,
          List.countP_cons]
      · simp [pool_get_next_task, ih (i + 1), queue_item_dropped, hc,
          List.countP_cons]

theorem mem_pool_get_next_task (alive : Nat → Bool) (i : Nat)
    (queue : List (Option Task)) (t : Task)
    (hmem : t ∈ (pool_get_next_task alive i queue).1) :
    some t ∈ queue ∧ t.cancelled = false := by
  induction queue generalizing i with
  | nil => simp [pool_get_next_task] at hmem
  | cons item rest ih =>
    by_cases ha : alive i = true
    · cases item with
      | none =>
        simp only [pool_get_next_task, ha, if_true] at hmem
        obtain ⟨hq, hc⟩ := ih (i + 1) hmem
        exact ⟨List.mem_cons_of_mem _ hq, hc⟩
      | some u =>
        by_cases hc : u.cancelled = true
        · simp [pool_get_next_task, ha, hc] at hmem
          obtain ⟨hq, hc₀⟩ := ih (i + 1) hmem
          exact ⟨List.mem_cons_of_mem _ hq, hc₀⟩
        · simp [pool_get_next_task, ha, hc] at hmem
          rcases hmem with h | h
          · subst h
            exact ⟨List.mem_cons_self _ _, Bool.eq_false_iff.mpr hc⟩
          · obtain ⟨hq, hc₀⟩ := ih (i + 1) h
            exact ⟨List.mem_cons_of_mem _ hq, hc₀⟩
    · simp [pool_get_next_task, ha] at hmem

theorem foldl_schedule_channel (l : List Task) (s : PoolMState) :
    (l.foldl schedule s).channel =
      s.channel ++ l.map (fun t => Message.NewTask t.number t.metadata) := by
  induction l generalizing s with
  | nil => simp
  | cons t rest ih =>
    rw [List.foldl_cons, ih (schedule s t)]
    simp [schedule, dispatch]

/-- C3 counterexample: the claim says retrieving the `None` sentinel
makes the loop exit; in the code the sentinel only gets a
`task_queue.task_done()` mark, after which the loop re-checks
`context.alive`.  With `alive` still true and queue
`[None, task]`, the loop runs past the sentinel and still yields the
following task — so retrieving the sentinel did not exit the loop. -/
theorem sentinel_does_not_exit_loop :
    (pool_get_next_task (fun _ => true) 0
        [Option.none, some (submittedTask 1 ⟨0, [], []⟩ 0)]).1 =
      [submittedTask 1 ⟨0, [], []⟩ 0] := rfl

/-- C3 amended: each iteration first reads `context.alive` and exits
when it is false (`Pool.stop` clears `alive` before enqueueing the
`None` sentinel, so the sentinel only wakes the blocked `get`); while
alive, the sentinel and cancelled tasks are marked done on the queue
and skipped without dispatch, and every other task is yielded to
`pool_manager.schedule`, in order. -/
theorem scheduler_loop_spec (queue : List (Option Task)) :
    (∀ alive i, alive i = false →
      pool_get_next_task alive i queue = ([], 0)) ∧
    pool_get_next_task (fun _ => true) 0 queue =
      ((queue.filterMap id).filter (fun t => !t.cancelled),
       queue.countP queue_item_dropped) := by
  constructor
  · intro alive i h
    cases queue with
    | nil => rfl
    | cons item rest => simp [pool_get_next_task, h]
  · exact pool_get_next_task_alive_true 0 queue

/-- Witness for C3 amended: a dead loop yields nothing; a live loop
over `[None, task]` yields the task and marks one item done. -/
theorem scheduler_loop_spec_witness :
    pool_get_next_task (fun _ => false) 0 [Option.none] = ([], 0) ∧
    pool_get_next_task (fun _ => true) 0
        [Option.none, some (submittedTask 2 ⟨0, [], []⟩ 0)] =
      ([submittedTask 2 ⟨0, [], []⟩ 0], 1) := by
  constructor
  · exact (scheduler_loop_spec [Option.none]).1 (fun _ => false) 0 rfl
  · have h :=
      (scheduler_loop_spec
        [Option.none, some (submittedTask 2 ⟨0, [], []⟩ 0)]).2
    rw [h]
    rfl

/-- C9: if every queued snapshot of the task numbered `n` is already
cancelled when the scheduler loop retrieves it, then no `NewTask`
message with id `n` is ever appended to the channel by the scheduler
loop: cancelled items never reach `schedule`, hence never
`dispatch`. -/
theorem cancelled_task_never_dispatched (alive : Nat → Bool)
    (queue : List (Option Task)) (s : PoolMState) (n : Nat) (md : Metadata)
    (hn : ∀ t : Task, some t ∈ queue → t.number = n → t.cancelled = true)
    (hmem :
      Message.NewTask n md ∈ (task_scheduler_loop alive queue s).channel) :
    Message.NewTask n md ∈ s.channel := by
  rw [task_scheduler_loop, foldl_schedule_channel] at hmem
  rcases List.mem_append.mp hmem with h | h
  · exact h
  · rcases List.mem_map.mp h with ⟨t, hty, heq⟩
    obtain ⟨hq, hcf⟩ := mem_pool_get_next_task alive 0 queue t hty
    simp only [Message.NewTask.injEq] at heq
    exact absurd (hn t hq heq.1) (by simp [hcf])

/-- Witness for C9: a single cancelled task numbered 7 is enqueued into
a fresh pool; no `NewTask 7` appears on the channel. -/
theorem cancelled_task_never_dispatched_witness :
    Message.NewTask 7 Metadata.empty ∉
      (task_scheduler_loop (fun _ => true)
        [some { submittedTask 7 ⟨0, [], []⟩ 0 with cancelled := true }]
        ⟨[], []⟩).channel := by
  intro hmem
  have h := cancelled_task_never_dispatched (fun _ => true)
    [some { submittedTask 7 ⟨0, [], []⟩ 0 with cancelled := true }]
    ⟨[], []⟩ 7 Metadata.empty
    (by
      intro t ht hnum
      simp only [List.mem_singleton, Option.some.injEq] at ht
      subst ht
      rfl)
    hmem
  simp at h

/-- C1: `PoolManager.schedule` makes `WorkerManager.dispatch` append to
the pool channel a `NewTask` message carrying the task's `number` and
the task's payload.  The hypothesis records that at dispatch time the
`_metadata` slot still holds the payload, as arranged by the submission
facade (the worker side, `execute_next_task`, unpacks exactly this slot
as `(function, args, kwargs)`). -/
theorem schedule_sends_NewTask_with_payload (s : PoolMState) (t : Task)
    (h : t.metadata = Metadata.payload t.payload) :
    (schedule s t).channel =
      s.channel ++ [Message.NewTask t.number (Metadata.payload t.payload)] := by
  simp [schedule, dispatch, h]

/-- Witness for C1 at a concrete submitted task. -/
theorem schedule_sends_NewTask_with_payload_witness :
    (schedule ⟨[], []⟩ (submittedTask 3 ⟨7, [1], []⟩ 0)).channel =
      [Message.NewTask 3 (Metadata.payload ⟨7, [1], []⟩)] := by
  have h := schedule_sends_NewTask_with_payload ⟨[], []⟩
    (submittedTask 3 ⟨7, [1], []⟩ 0) rfl
  simpa using h

/-- C2 counterexample: the claim says a `task_start` whose `task_id` is
absent from the table is silently dropped, but
`task = self.tasks[task_id]` raises `KeyError` (modelled by `none`);
the silent-drop claim would require `some` with the table unchanged.
Concrete input: empty table, task_id 0, worker pid 1. -/
theorem task_start_absent_raises :
    task_start [] 0 1 0 = Option.none ∧
      task_start [] 0 1 0 ≠ some [] := by
  constructor
  · rfl
  · intro h
    simp [task_start, dictGet] at h

/-- C2 amended: `task_start` with an absent `task_id` raises `KeyError`
(propagated, not dropped); with a present `task_id` it stores the task
back with `_metadata = worker_pid` and `_timestamp = now`. -/
theorem task_start_spec (tasks : TaskTable) (task_id worker_id : Nat)
    (now : Int) :
    (dictGet tasks task_id = Option.none →
      task_start tasks task_id worker_id now = Option.none) ∧
    (∀ t, dictGet tasks task_id = some t →
      task_start tasks task_id worker_id now =
        some (dictSet tasks task_id
          { t with metadata := Metadata.worker worker_id,
                   timestamp := now })) := by
  constructor
  · intro h
    simp [task_start, h]
  · intro t h
    simp [task_start, h]

/-- Witness for C2 amended: a one-entry table, hypothesis discharged by
evaluation. -/
theorem task_start_spec_witness :
    task_start [(5, submittedTask 5 ⟨1, [], []⟩ 0)] 5 9 4 =
      some [(5, { submittedTask 5 ⟨1, [], []⟩ 0 with
                    metadata := Metadata.worker 9, timestamp := 4 })] := by
  have h := (task_start_spec [(5, submittedTask 5 ⟨1, [], []⟩ 0)] 5 9 4).2
    (submittedTask 5 ⟨1, [], []⟩ 0) rfl
  simpa [dictSet] using h

/-- C6: `inspect_tasks` returns exactly the pair of filters described
by the spec: the tasks with `started ∧ timeout > 0 ∧
now − _timestamp > timeout`, and the tasks with `started ∧ cancelled`;
an unstarted task (cancelled or not) appears in neither. -/
theorem inspect_tasks_eq_spec (now : Int) (tasks : TaskTable) :
    inspect_tasks now tasks =
      ((tasks.map Prod.snd).filter (fun t => specTimedOut now t),
       (tasks.map Prod.snd).filter (fun t => specCancelledRunning t)) ∧
    ∀ t, t.started = false →
      t ∉ (inspect_tasks now tasks).1 ∧ t ∉ (inspect_tasks now tasks).2 := by
  have hpred : ∀ t : Task, has_timeout now t = specTimedOut now t := by
    intro t
    by_cases hs : t.started
    · by_cases h0 : t.timeout = 0
      · simp [has_timeout, specTimedOut, hs, h0]
      · simp [has_timeout, specTimedOut, hs, h0, Nat.pos_of_ne_zero h0]
    · simp [has_timeout, specTimedOut, Bool.eq_false_iff.mpr hs]
  constructor
  · simp only [inspect_tasks, specCancelledRunning]
    exact congrArg₂ Prod.mk (List.filter_congr (fun t _ => hpred t)) rfl
  · intro t hns
    constructor
    · intro hmem
      have := List.of_mem_filter hmem
      rw [hpred] at this
      simp [specTimedOut, hns] at this
    · intro hmem
      have := List.of_mem_filter hmem
      simp [hns] at this

theorem dictGet_eq_none_iff (m : TaskTable) (k : Nat) :
    dictGet m k = Option.none ↔ ∀ q ∈ m, q.1 ≠ k := by
  induction m with
  | nil => simp [dictGet]
  | cons hd rest ih =>
    obtain ⟨k₀, v⟩ := hd
    by_cases hk : k₀ = k
    · subst hk
      simp [dictGet]
    · simp [dictGet, hk, ih]

theorem dictGet_mem {m : TaskTable} {k : Nat} {t : Task}
    (h : dictGet m k = some t) : (k, t) ∈ m := by
  induction m with
  | nil => simp [dictGet] at h
  | cons hd rest ih =>
    obtain ⟨k₀, v⟩ := hd
    by_cases hk : k₀ = k
    · subst hk
      have hv : v = t := by simpa [dictGet] using h
      subst hv
      exact List.mem_cons_self _ _
    · have h' : dictGet rest k = some t := by simpa [dictGet, hk] using h
      exact List.mem_cons_of_mem _ (ih h')

theorem dictPop_eq (m : TaskTable) (k : Nat) :
    dictPop m k =
      (dictGet m k).map (fun t => (t, m.eraseP (fun q => q.1 == k))) := by
  induction m with
  | nil => rfl
  | cons hd rest ih =>
    obtain ⟨k₀, v⟩ := hd
    by_cases hk : k₀ = k
    · subst hk
      simp [dictPop, dictGet]
    · cases hg : dictGet rest k with
      | none => simp [dictPop, dictGet, hk, ih, hg]
      | some t => simp [dictPop, dictGet, hk, ih, hg]

theorem countKey_pos_of_mem {m : TaskTable} {k : Nat} {t : Task}
    (h : (k, t) ∈ m) : 0 < countKey m k :=
  List.countP_pos_iff.mpr ⟨(k, t), h, by simp⟩

theorem countKey_le_of_sublist {m₁ m₂ : TaskTable} (h : List.Sublist m₁ m₂)
    (k : Nat) :
    countKey m₁ k ≤ countKey m₂ k :=
  h.countP_le _

theorem countKey_eraseP_succ {m : TaskTable} {k : Nat} {t : Task}
    (h : dictGet m k = some t) :
    countKey (m.eraseP (fun q => q.1 == k)) k + 1 = countKey m k := by
  induction m with
  | nil => simp [dictGet] at h
  | cons hd rest ih =>
    obtain ⟨k₀, v⟩ := hd
    by_cases hk : k₀ = k
    · subst hk
      simp [countKey, List.countP_cons]
    · have h' : dictGet rest k = some t := by simpa [dictGet, hk] using h
      have hih := ih h'
      rw [List.eraseP_cons_of_neg (by simp [hk])]
      simp only [countKey, List.countP_cons] at hih ⊢
      simp [hk]
      omega

theorem wellKeyed_sublist {m₁ m₂ : TaskTable} (h : List.Sublist m₁ m₂)
    (hwk : wellKeyed m₂) : wellKeyed m₁ :=
  fun q hq => hwk q (h.subset hq)

theorem task_done_absent {tasks : TaskTable} {task_id : Nat} {o : Outcome}
    (h : dictGet tasks task_id = Option.none) :
    task_done tasks task_id o = (tasks, Option.none) := by
  simp [task_done, dictPop_eq, h]

theorem task_done_present {tasks : TaskTable} {task_id : Nat} {o : Outcome}
    {t : Task} (h : dictGet tasks task_id = some t) :
    task_done tasks task_id o =
      (tasks.eraseP (fun q => q.1 == task_id), some (t, o)) := by
  simp [task_done, dictPop_eq, h]

theorem task_done_list_absent_no_events (calls : List (Nat × Outcome))
    (tasks : TaskTable) (id : Nat) (hwk : wellKeyed tasks)
    (h0 : countKey tasks id = 0) :
    (task_done_list tasks calls).2.countP (fun e => e.1.number == id) = 0 := by
  induction calls generalizing tasks with
  | nil => simp [task_done_list]
  | cons c rest ih =>
    obtain ⟨cid, o⟩ := c
    cases hg : dictGet tasks cid with
    | none =>
      simp only [task_done_list, task_done_absent hg]
      simpa using ih tasks hwk h0
    | some t =>
      have hmem := dictGet_mem hg
      have hnum : t.number = cid := hwk _ hmem
      have hcid : cid ≠ id := by
        intro heq
        subst heq
        exact absurd h0 (Nat.pos_iff_ne_zero.mp (countKey_pos_of_mem hmem))
      have hpred : (t.number == id) = false := by simp [hnum, hcid]
      have hsub : List.Sublist (tasks.eraseP (fun q => q.1 == cid)) tasks :=
        List.eraseP_sublist _
      have h0q : countKey (tasks.eraseP (fun q => q.1 == cid)) id = 0 :=
        Nat.le_zero.mp (h0 ▸ countKey_le_of_sublist hsub id)
      simp only [task_done_list, task_done_present hg]
      simpa [hpred] using ih _ (wellKeyed_sublist hsub hwk) h0q

theorem task_done_list_countP_le_one (calls : List (Nat × Outcome))
    (tasks : TaskTable) (id : Nat) (hwk : wellKeyed tasks)
    (h1 : countKey tasks id ≤ 1) :
    (task_done_list tasks calls).2.countP (fun e => e.1.number == id) ≤ 1 := by
  induction calls generalizing tasks with
  | nil => simp [task_done_list]
  | cons c rest ih =>
    obtain ⟨cid, o⟩ := c
    cases hg : dictGet tasks cid with
    | none =>
      simp only [task_done_list, task_done_absent hg]
      simpa using ih tasks hwk h1
    | some t =>
      have hmem := dictGet_mem hg
      have hnum : t.number = cid := hwk _ hmem
      have hsub : List.Sublist (tasks.eraseP (fun q => q.1 == cid)) tasks :=
        List.eraseP_sublist _
      by_cases hid : cid = id
      · subst hid
        have hsucc := countKey_eraseP_succ hg
        have h0q : countKey (tasks.eraseP (fun q => q.1 == cid)) cid = 0 := by
          omega
        have hzero := task_done_list_absent_no_events rest _ cid
          (wellKeyed_sublist hsub hwk) h0q
        simp only [task_done_list, task_done_present hg]
        simp [hnum, hzero]
      · have hpred : (t.number == id) = false := by simp [hnum, hid]
        have h1q : countKey (tasks.eraseP (fun q => q.1 == cid)) id ≤ 1 :=
          le_trans (countKey_le_of_sublist hsub id) h1
        simp only [task_done_list, task_done_present hg]
        simpa [hpred] using ih _ (wellKeyed_sublist hsub hwk) h1q

theorem countKey_le_one_of_nodup {m : TaskTable}
    (hnd : (m.map Prod.fst).Nodup) (k : Nat) : countKey m k ≤ 1 := by
  have h := List.nodup_iff_count_le_one.mp hnd k
  calc countKey m k = (m.map Prod.fst).count k := by
        rw [List.count_eq_countP, List.countP_map]
        rfl
    _ ≤ 1 := h

theorem dictGet_eraseP_of_nodup {m : TaskTable} {k : Nat}
    (hnd : (m.map Prod.fst).Nodup) :
    dictGet (m.eraseP (fun q => q.1 == k)) k = Option.none := by
  induction m with
  | nil => rfl
  | cons hd rest ih =>
    obtain ⟨k₀, v⟩ := hd
    simp only [List.map_cons, List.nodup_cons] at hnd
    by_cases hk : k₀ = k
    · subst hk
      rw [List.eraseP_cons_of_pos (by simp)]
      rw [dictGet_eq_none_iff]
      intro q hq hqk
      exact hnd.1 (hqk ▸ List.mem_map_of_mem Prod.fst hq)
    · rw [List.eraseP_cons_of_neg (by simp [hk])]
      simp only [dictGet, hk, if_false]
      simpa [hk] using ih hnd.2

theorem dictGet_of_mem_nodup {m : TaskTable} {k : Nat} {t : Task}
    (h : (k, t) ∈ m) (hnd : (m.map Prod.fst).Nodup) :
    dictGet m k = some t := by
  induction m with
  | nil => simp at h
  | cons hd rest ih =>
    obtain ⟨k₀, v⟩ := hd
    simp only [List.map_cons, List.nodup_cons] at hnd
    rcases List.mem_cons.mp h with heq | hmem
    · cases heq
      simp [dictGet]
    · by_cases hk : k₀ = k
      · subst hk
        exact absurd (List.mem_map_of_mem Prod.fst hmem) hnd.1
      · simp only [dictGet, hk, if_false]
        exact ih hmem hnd.2

theorem eraseP_key_eq_filter {m : TaskTable} {k : Nat}
    (hnd : (m.map Prod.fst).Nodup) :
    m.eraseP (fun q => q.1 == k) = m.filter (fun q => q.1 != k) := by
  induction m with
  | nil => rfl
  | cons hd rest ih =>
    obtain ⟨k₀, v⟩ := hd
    simp only [List.map_cons, List.nodup_cons] at hnd
    by_cases hk : k₀ = k
    · subst hk
      rw [List.eraseP_cons_of_pos (by simp),
        List.filter_cons_of_neg (by simp)]
      symm
      apply List.filter_eq_self.mpr
      intro q hq
      simp only [bne_iff_ne, ne_eq, decide_eq_true_eq]
      intro hqk
      exact hnd.1 (hqk ▸ List.mem_map_of_mem Prod.fst hq)
    · rw [List.eraseP_cons_of_neg (by simp [hk]),
        List.filter_cons_of_pos (by simp [hk]), ih hnd.2]

theorem mem_values_of_mem {m : TaskTable} {t : Task} (hwk : wellKeyed m)
    (h : t ∈ m.map Prod.snd) : (t.number, t) ∈ m := by
  rcases List.mem_map.mp h with ⟨q, hq, hqt⟩
  obtain ⟨k, v⟩ := q
  have hk := hwk (k, v) hq
  dsimp only at hqt hk
  subst hqt
  rw [hk]
  exact hq

theorem values_map_number {m : TaskTable} (hwk : wellKeyed m) :
    (m.map Prod.snd).map Task.number = m.map Prod.fst := by
  induction m with
  | nil => rfl
  | cons hd rest ih =>
    simp only [List.map_cons]
    rw [hwk hd (List.mem_cons_self _ _),
      ih (fun q hq => hwk q (List.mem_cons_of_mem _ hq))]

theorem mem_keys_filter {tasks : TaskTable} {n k : Nat} :
    k ∈ (tasks.filter (fun q => q.1 != n)).map Prod.fst ↔
      k ∈ tasks.map Prod.fst ∧ k ≠ n := by
  simp only [List.mem_map, List.mem_filter, bne_iff_ne, ne_eq,
    decide_eq_true_eq]
  constructor
  · rintro ⟨q, ⟨hq, hqn⟩, rfl⟩
    exact ⟨⟨q, hq, rfl⟩, hqn⟩
  · rintro ⟨⟨q, hq, rfl⟩, hkn⟩
    exact ⟨q, ⟨hq, hkn⟩, rfl⟩

theorem task_done_list_map_spec (L : List Task) (f : Task → Outcome) :
    ∀ tasks : TaskTable, wellKeyed tasks → (tasks.map Prod.fst).Nodup →
    (∀ t ∈ L, (t.number, t) ∈ tasks ∨ t.number ∉ tasks.map Prod.fst) →
    (L.map Task.number).Nodup →
    task_done_list tasks (L.map (fun t => (t.number, f t))) =
      (tasks.filter (fun q => decide (q.1 ∉ L.map Task.number)),
       (L.filter (fun t => decide (t.number ∈ tasks.map Prod.fst))).map
         (fun t => (t, f t))) := by
  induction L with
  | nil =>
    intro tasks hwk hnd hL hLnd
    simp [task_done_list]
  | cons t Lr ih =>
    intro tasks hwk hnd hL hLnd
    simp only [List.map_cons, List.nodup_cons] at hLnd
    have hLr : ∀ s ∈ Lr, s.number ≠ t.number := by
      intro s hs heq
      exact hLnd.1 (heq ▸ List.mem_map_of_mem Task.number hs)
    rcases hL t (List.mem_cons_self _ _) with hmem | habs
    · have hget : dictGet tasks t.number = some t :=
        dictGet_of_mem_nodup hmem hnd
      have hkey : t.number ∈ tasks.map Prod.fst :=
        List.mem_map_of_mem Prod.fst hmem
      have hstep : task_done tasks t.number (f t) =
          (tasks.filter (fun q => q.1 != t.number), some (t, f t)) := by
        rw [task_done_present hget, eraseP_key_eq_filter hnd]
      have hsub : List.Sublist (tasks.filter (fun q => q.1 != t.number))
          tasks := List.filter_sublist _
      have hwk₂ := wellKeyed_sublist hsub hwk
      have hnd₂ := List.Nodup.sublist (hsub.map Prod.fst) hnd
      have hL₂ : ∀ s ∈ Lr, (s.number, s) ∈
            tasks.filter (fun q => q.1 != t.number) ∨
          s.number ∉ (tasks.filter (fun q => q.1 != t.number)).map
            Prod.fst := by
        intro s hs
        rcases hL s (List.mem_cons_of_mem _ hs) with hin | hout
        · left
          refine List.mem_filter.mpr ⟨hin, ?_⟩
          simp [hLr s hs]
        · right
          intro hk
          exact hout (mem_keys_filter.mp hk).1
      have hkeyeq : ∀ s ∈ Lr,
          decide (s.number ∈ (tasks.filter
              (fun q => q.1 != t.number)).map Prod.fst) =
            decide (s.number ∈ tasks.map Prod.fst) := by
        intro s hs
        rcases hL s (List.mem_cons_of_mem _ hs) with hin | hout
        · have h1 : s.number ∈ tasks.map Prod.fst :=
            List.mem_map_of_mem Prod.fst hin
          have h2 : s.number ∈ (tasks.filter
              (fun q => q.1 != t.number)).map Prod.fst :=
            mem_keys_filter.mpr ⟨h1, hLr s hs⟩
          simp [h1, h2]
        · have h2 : s.number ∉ (tasks.filter
              (fun q => q.1 != t.number)).map Prod.fst := by
            intro hk
            exact hout (mem_keys_filter.mp hk).1
          simp [hout, h2]
      simp only [List.map_cons, task_done_list, hstep]
      rw [ih _ hwk₂ hnd₂ hL₂ hLnd.2]
      refine congrArg₂ Prod.mk ?_ ?_
      · rw [List.filter_filter]
        apply List.filter_congr
        intro q hq
        by_cases h1 : q.1 = t.number <;>
          by_cases h2 : q.1 ∈ Lr.map Task.number <;>
            simp [h1, h2, List.mem_cons]
      · rw [List.filter_cons_of_pos (by simpa using hkey)]
        simp only [List.map_cons, Option.toList_some, List.cons_append,
          List.nil_append, List.singleton_append]
        exact congrArg _ (congrArg _ (List.filter_congr hkeyeq))
    · have hget : dictGet tasks t.number = Option.none := by
        rw [dictGet_eq_none_iff]
        intro q hq hqk
        exact habs (hqk ▸ List.mem_map_of_mem Prod.fst hq)
      simp only [List.map_cons, task_done_list, task_done_absent hget]
      rw [ih _ hwk hnd (fun s hs => hL s (List.mem_cons_of_mem _ hs))
        hLnd.2]
      refine congrArg₂ Prod.mk ?_ ?_
      · apply List.filter_congr
        intro q hq
        have hqk : q.1 ≠ t.number := by
          intro h
          exact habs (h ▸ List.mem_map_of_mem Prod.fst hq)
        by_cases h2 : q.1 ∈ Lr.map Task.number <;>
          simp [hqk, h2, List.mem_cons]
      · rw [List.filter_cons_of_neg (by simpa using habs)]
        simp

/-- C4: `task_done` with an absent `task_id` is a silent no-op (the
`KeyError` of `pop` is swallowed); with a present `task_id` it removes
that task from the table — its key is gone afterwards — and produces
exactly one event standing for the `task.set_results(results)` call and
the one completion-callback invocation next to it; consequently, along
any sequence of `task_done` calls (the results-message, timeout,
cancellation and worker-crash paths all resolve tasks through here), at
most one set_results event is produced for any given task number. -/
theorem task_done_at_most_once (tasks : TaskTable) (task_id : Nat)
    (o : Outcome) (calls : List (Nat × Outcome)) (id : Nat)
    (hwk : wellKeyed tasks) (hnd : (tasks.map Prod.fst).Nodup) :
    (dictGet tasks task_id = Option.none →
      task_done tasks task_id o = (tasks, Option.none)) ∧
    (∀ t, dictGet tasks task_id = some t →
      task_done tasks task_id o =
        (tasks.eraseP (fun q => q.1 == task_id), some (t, o)) ∧
      dictGet (task_done tasks task_id o).1 task_id = Option.none) ∧
    (task_done_list tasks calls).2.countP (fun e => e.1.number == id) ≤ 1 := by
  refine ⟨fun h => task_done_absent h, fun t h => ⟨task_done_present h, ?_⟩, ?_⟩
  · rw [task_done_present h]
    exact dictGet_eraseP_of_nodup hnd
  · exact task_done_list_countP_le_one calls tasks id hwk
      (countKey_le_one_of_nodup hnd id)

/-- Witness for C4: one registered task numbered 3, resolved twice
(timeout first, then a late cancellation); at most one set_results
event is produced. -/
theorem task_done_at_most_once_witness :
    (task_done_list [(3, submittedTask 3 ⟨0, [], []⟩ 1)]
        [(3, Outcome.timeoutError), (3, Outcome.taskCancelled)]).2.countP
      (fun e => e.1.number == 3) ≤ 1 :=
  (task_done_at_most_once [(3, submittedTask 3 ⟨0, [], []⟩ 1)] 3
    Outcome.timeoutError
    [(3, Outcome.timeoutError), (3, Outcome.taskCancelled)] 3
    (by
      intro p hp
      simp only [List.mem_singleton] at hp
      subst hp
      rfl)
    (by decide)).2.2

theorem acks_locked_flatMap (pid : Nat) (execute : Payload → Outcome)
    (ts : List TaskMsg) (held : Bool) :
    acks_locked held (ts.flatMap (worker_task_events pid execute)) = true := by
  induction ts generalizing held with
  | nil => rfl
  | cons t rest ih =>
    rw [List.flatMap_cons]
    simp [worker_task_events, task_transaction_events, acks_locked]
    simpa using ih false

theorem acks_before_results_flatMap (pid : Nat)
    (execute : Payload → Outcome) (ts : List TaskMsg) (acked : List Nat) :
    acks_before_results pid acked
      (ts.flatMap (worker_task_events pid execute)) = true := by
  induction ts generalizing acked with
  | nil => rfl
  | cons t rest ih =>
    rw [List.flatMap_cons]
    simp [worker_task_events, task_transaction_events, acks_before_results]
    simpa using ih (t.id :: acked)

theorem results_follow_execution_flatMap (pid : Nat)
    (execute : Payload → Outcome) (ts : List TaskMsg)
    (outs : List Outcome) :
    results_follow_execution execute outs
      (ts.flatMap (worker_task_events pid execute)) = true := by
  induction ts generalizing outs with
  | nil => rfl
  | cons t rest ih =>
    rw [List.flatMap_cons]
    simp [worker_task_events, task_transaction_events,
      results_follow_execution]
    simpa using ih (execute t.payload :: outs)

theorem update_tasks_events (now : Int) (tasks : TaskTable)
    (hwk : wellKeyed tasks) (hnd : (tasks.map Prod.fst).Nodup) :
    (update_tasks now tasks).2.1 =
      ((tasks.map Prod.snd).filter (fun t => has_timeout now t)).map
        (fun t => (t, Outcome.timeoutError)) ++
      ((tasks.map Prod.snd).filter
        (fun t => (t.started && t.cancelled) && !(has_timeout now t))).map
        (fun t => (t, Outcome.taskCancelled)) ∧
    (update_tasks now tasks).2.2 =
      ((tasks.map Prod.snd).filter (fun t => has_timeout now t) ++
       (tasks.map Prod.snd).filter
         (fun t => t.started && t.cancelled)).map
        (fun t => t.metadata) := by
  have hvalsnd : ((tasks.map Prod.snd).map Task.number).Nodup := by
    rw [values_map_number hwk]
    exact hnd
  have hinj := List.inj_on_of_nodup_map hvalsnd
  have hL₁sub : List.Sublist
      ((tasks.map Prod.snd).filter (fun t => has_timeout now t))
      (tasks.map Prod.snd) := List.filter_sublist _
  have hL₂sub : List.Sublist
      ((tasks.map Prod.snd).filter (fun t => t.started && t.cancelled))
      (tasks.map Prod.snd) := List.filter_sublist _
  have hL₁nd := List.Nodup.sublist (hL₁sub.map Task.number) hvalsnd
  have hL₂nd := List.Nodup.sublist (hL₂sub.map Task.number) hvalsnd
  have hstep1 := task_done_list_map_spec
    ((tasks.map Prod.snd).filter (fun t => has_timeout now t))
    (fun _ => Outcome.timeoutError) tasks hwk hnd
    (fun t ht => Or.inl (mem_values_of_mem hwk (hL₁sub.subset ht))) hL₁nd
  have hall₁ : (((tasks.map Prod.snd).filter
        (fun t => has_timeout now t)).filter
      (fun t => decide (t.number ∈ tasks.map Prod.fst))) =
      (tasks.map Prod.snd).filter (fun t => has_timeout now t) := by
    apply List.filter_eq_self.mpr
    intro t ht
    simp only [decide_eq_true_eq]
    exact List.mem_map_of_mem Prod.fst
      (mem_values_of_mem hwk (hL₁sub.subset ht))
  have hsub₂ : List.Sublist (tasks.filter (fun q => decide (q.1 ∉
      ((tasks.map Prod.snd).filter (fun t => has_timeout now t)).map
        Task.number))) tasks := List.filter_sublist _
  have hwk₂ := wellKeyed_sublist hsub₂ hwk
  have hnd₂ := List.Nodup.sublist (hsub₂.map Prod.fst) hnd
  have habs₂ : ∀ s : Task, has_timeout now s = true →
      s ∈ tasks.map Prod.snd →
      s.number ∉ (tasks.filter (fun q => decide (q.1 ∉
        ((tasks.map Prod.snd).filter (fun t => has_timeout now t)).map
          Task.number))).map Prod.fst := by
    intro s hts hsv hk
    rcases List.mem_map.mp hk with ⟨q, hq, hq1⟩
    have hpred := (List.mem_filter.mp hq).2
    simp only [decide_eq_true_eq] at hpred
    apply hpred
    rw [hq1]
    exact List.mem_map_of_mem Task.number
      (List.mem_filter.mpr ⟨hsv, hts⟩)
  have hpres₂ : ∀ s : Task, ¬(has_timeout now s = true) →
      s ∈ tasks.map Prod.snd →
      (s.number, s) ∈ tasks.filter (fun q => decide (q.1 ∉
        ((tasks.map Prod.snd).filter (fun t => has_timeout now t)).map
          Task.number)) := by
    intro s hts hsv
    apply List.mem_filter.mpr
    refine ⟨mem_values_of_mem hwk hsv, ?_⟩
    simp only [decide_eq_true_eq]
    intro hmem
    rcases List.mem_map.mp hmem with ⟨u, hu, hun⟩
    have husv : u ∈ tasks.map Prod.snd := hL₁sub.subset hu
    have hus : u = s := hinj husv hsv hun
    have htu := (List.mem_filter.mp hu).2
    rw [hus] at htu
    exact hts htu
  have hdich : ∀ s ∈ (tasks.map Prod.snd).filter
      (fun t => t.started && t.cancelled),
      (s.number, s) ∈ tasks.filter (fun q => decide (q.1 ∉
        ((tasks.map Prod.snd).filter (fun t => has_timeout now t)).map
          Task.number)) ∨
      s.number ∉ (tasks.filter (fun q => decide (q.1 ∉
        ((tasks.map Prod.snd).filter (fun t => has_timeout now t)).map
          Task.number))).map Prod.fst := by
    intro s hs
    by_cases hts : has_timeout now s = true
    · exact Or.inr (habs₂ s hts (hL₂sub.subset hs))
    · exact Or.inl (hpres₂ s hts (hL₂sub.subset hs))
  have hstep2 := task_done_list_map_spec
    ((tasks.map Prod.snd).filter (fun t => t.started && t.cancelled))
    (fun _ => Outcome.taskCancelled)
    (tasks.filter (fun q => decide (q.1 ∉
      ((tasks.map Prod.snd).filter (fun t => has_timeout now t)).map
        Task.number))) hwk₂ hnd₂ hdich hL₂nd
  have hkeyeq : ∀ s ∈ (tasks.map Prod.snd).filter
      (fun t => t.started && t.cancelled),
      decide (s.number ∈ (tasks.filter (fun q => decide (q.1 ∉
        ((tasks.map Prod.snd).filter (fun t => has_timeout now t)).map
          Task.number))).map Prod.fst) = !(has_timeout now s) := by
    intro s hs
    by_cases hts : has_timeout now s = true
    · rw [hts]
      exact decide_eq_false (habs₂ s hts (hL₂sub.subset hs))
    · have hp := hpres₂ s hts (hL₂sub.subset hs)
      have hk : s.number ∈ (tasks.filter (fun q => decide (q.1 ∉
          ((tasks.map Prod.snd).filter (fun t => has_timeout now t)).map
            Task.number))).map Prod.fst := List.mem_map_of_mem Prod.fst hp
      rw [Bool.eq_false_iff.mpr hts]
      exact decide_eq_true hk
  constructor
  · simp only [update_tasks, inspect_tasks]
    rw [hstep1]
    dsimp only
    rw [hstep2]
    dsimp only
    rw [hall₁]
    refine congrArg _ ?_
    rw [List.filter_congr hkeyeq, List.filter_filter]
    refine congrArg _ (List.filter_congr ?_)
    intro s hs
    rw [Bool.and_comm]
  · simp only [update_tasks, inspect_tasks, List.map_append]

theorem filter_number_eq_singleton {L : List Task} {t : Task}
    (hnd : (L.map Task.number).Nodup) (hmem : t ∈ L) :
    L.filter (fun s => s.number == t.number) = [t] := by
  induction L with
  | nil => simp at hmem
  | cons a Lr ih =>
    simp only [List.map_cons, List.nodup_cons] at hnd
    rcases List.mem_cons.mp hmem with rfl | hmem₂
    · rw [List.filter_cons_of_pos (by simp)]
      have hnil : Lr.filter (fun s => s.number == t.number) = [] := by
        apply List.filter_eq_nil_iff.mpr
        intro s hs hps
        simp only [beq_iff_eq] at hps
        exact hnd.1 (hps ▸ List.mem_map_of_mem Task.number hs)
      rw [hnil]
    · have hne : a.number ≠ t.number := by
        intro heq
        exact hnd.1 (heq ▸ List.mem_map_of_mem Task.number hmem₂)
      rw [List.filter_cons_of_neg (by simp [hne])]
      exact ih hnd.2 hmem₂

/-- C5 counterexample: a task that at the same status tick is both
timed out and started-and-cancelled appears in both lists of
`inspect_tasks`, but `update_tasks` resolves it with `TimeoutError`
(the timed-out pass runs first); the claim's clause that every
started-and-cancelled task is resolved with a `TaskCancelled` outcome
fails on this input — the only set_results event carries
`TimeoutError`. -/
theorem update_tasks_cancelled_overlap_cex :
    (update_tasks 5
        [(0, Task.mk 0 ⟨0, [], []⟩ 1 true true (Metadata.worker 9) 0)]).2.1 =
      [(Task.mk 0 ⟨0, [], []⟩ 1 true true (Metadata.worker 9) 0,
        Outcome.timeoutError)] := by
  decide

/-- C5 amended: `update_tasks` resolves every timed-out task with a
`TimeoutError` outcome; resolves every started-and-cancelled task that
is not also timed out with a `TaskCancelled` outcome (one that is also
timed out was already removed by the timed-out pass, so its second
`task_done` is dropped); and then requests `stop_worker` on the
`_metadata` of every task in the timed-out and started-and-cancelled
lists, in that order. -/
theorem update_tasks_outcomes (now : Int) (tasks : TaskTable)
    (hwk : wellKeyed tasks) (hnd : (tasks.map Prod.fst).Nodup) :
    (update_tasks now tasks).2.1 =
      ((tasks.map Prod.snd).filter (fun t => has_timeout now t)).map
        (fun t => (t, Outcome.timeoutError)) ++
      ((tasks.map Prod.snd).filter
        (fun t => (t.started && t.cancelled) && !(has_timeout now t))).map
        (fun t => (t, Outcome.taskCancelled)) ∧
    (update_tasks now tasks).2.2 =
      ((tasks.map Prod.snd).filter (fun t => has_timeout now t) ++
       (tasks.map Prod.snd).filter
         (fun t => t.started && t.cancelled)).map
        (fun t => t.metadata) :=
  update_tasks_events now tasks hwk hnd

/-- Witness for C5 amended: one timed-out task (worker 4) and one
cancelled-running task (worker 5); the events and the stop requests
evaluate as characterized. -/
theorem update_tasks_outcomes_witness :
    (update_tasks 5
        [(1, Task.mk 1 ⟨0, [], []⟩ 1 false true (Metadata.worker 4) 0),
         (2, Task.mk 2 ⟨0, [], []⟩ 0 true true (Metadata.worker 5) 0)]).2.1 =
      [(Task.mk 1 ⟨0, [], []⟩ 1 false true (Metadata.worker 4) 0,
        Outcome.timeoutError),
       (Task.mk 2 ⟨0, [], []⟩ 0 true true (Metadata.worker 5) 0,
        Outcome.taskCancelled)] ∧
    (update_tasks 5
        [(1, Task.mk 1 ⟨0, [], []⟩ 1 false true (Metadata.worker 4) 0),
         (2, Task.mk 2 ⟨0, [], []⟩ 0 true true (Metadata.worker 5) 0)]).2.2 =
      [Metadata.worker 4, Metadata.worker 5] := by
  have h := update_tasks_outcomes 5
    [(1, Task.mk 1 ⟨0, [], []⟩ 1 false true (Metadata.worker 4) 0),
     (2, Task.mk 2 ⟨0, [], []⟩ 0 true true (Metadata.worker 5) 0)]
    (by
      intro p hp
      rcases List.mem_cons.mp hp with h₁ | hp₂
      · subst h₁
        rfl
      · rcases List.mem_cons.mp hp₂ with h₁ | h₁
        · subst h₁
          rfl
        · simp at h₁)
    (by decide)
  constructor
  · rw [h.1]
    decide
  · rw [h.2]
    decide

/-- C10: a task that at a single status tick is both timed out and
started-and-cancelled receives exactly one set_results event from
`update_tasks`, carrying `TimeoutError`: the timed-out list is
processed first, and the second `task_done` for the same number finds
the id already removed and is silently dropped. -/
theorem overlap_resolved_with_timeout_only (now : Int) (tasks : TaskTable)
    (t : Task) (hwk : wellKeyed tasks) (hnd : (tasks.map Prod.fst).Nodup)
    (hmem : t ∈ tasks.map Prod.snd) (hto : has_timeout now t = true)
    (hst : t.started = true) (hca : t.cancelled = true) :
    (update_tasks now tasks).2.1.filter
      (fun e => e.1.number == t.number) = [(t, Outcome.timeoutError)] := by
  have hvalsnd : ((tasks.map Prod.snd).map Task.number).Nodup := by
    rw [values_map_number hwk]
    exact hnd
  have hinj := List.inj_on_of_nodup_map hvalsnd
  obtain ⟨h1, _⟩ := update_tasks_events now tasks hwk hnd
  have hL₁sub : List.Sublist
      ((tasks.map Prod.snd).filter (fun s => has_timeout now s))
      (tasks.map Prod.snd) := List.filter_sublist _
  have hL₁nd := List.Nodup.sublist (hL₁sub.map Task.number) hvalsnd
  have hmem₁ : t ∈ (tasks.map Prod.snd).filter
      (fun s => has_timeout now s) := List.mem_filter.mpr ⟨hmem, hto⟩
  have hA : List.filter (fun e : Task × Outcome => e.1.number == t.number)
      (List.map (fun s => (s, Outcome.timeoutError))
        ((tasks.map Prod.snd).filter (fun s => has_timeout now s))) =
      [(t, Outcome.timeoutError)] := by
    rw [List.filter_map]
    have hco : (((fun e : Task × Outcome => e.1.number == t.number) ∘
        fun s => (s, Outcome.timeoutError)) : Task → Bool) =
        fun s => s.number == t.number := rfl
    rw [hco, filter_number_eq_singleton hL₁nd hmem₁]
    rfl
  have hB : List.filter (fun e : Task × Outcome => e.1.number == t.number)
      (List.map (fun s => (s, Outcome.taskCancelled))
        ((tasks.map Prod.snd).filter
          (fun s => (s.started && s.cancelled) && !(has_timeout now s)))) =
      [] := by
    rw [List.filter_map]
    have hco : (((fun e : Task × Outcome => e.1.number == t.number) ∘
        fun s => (s, Outcome.taskCancelled)) : Task → Bool) =
        fun s => s.number == t.number := rfl
    rw [hco]
    have hnil : ((tasks.map Prod.snd).filter
        (fun s => (s.started && s.cancelled) && !(has_timeout now s))).filter
        (fun s => s.number == t.number) = [] := by
      apply List.filter_eq_nil_iff.mpr
      intro s hs hps
      simp only [beq_iff_eq] at hps
      have hsv := (List.mem_filter.mp hs).1
      have hflags := (List.mem_filter.mp hs).2
      have hts : s = t := hinj hsv hmem hps
      subst hts
      rw [hto] at hflags
      simp at hflags
    rw [hnil]
    rfl
  rw [h1, List.filter_append, hA, hB]
  simp

/-- Witness for C10: the overlap task of the C5 counterexample, in a
one-entry table. -/
theorem overlap_resolved_with_timeout_only_witness :
    ((update_tasks 5
        [(0, Task.mk 0 ⟨0, [], []⟩ 1 true true
          (Metadata.worker 9) 0)]).2.1).filter
      (fun e => e.1.number ==
        (Task.mk 0 ⟨0, [], []⟩ 1 true true (Metadata.worker 9) 0).number) =
      [(Task.mk 0 ⟨0, [], []⟩ 1 true true (Metadata.worker 9) 0,
        Outcome.timeoutError)] := by
  apply overlap_resolved_with_timeout_only
  · intro p hp
    rcases List.mem_cons.mp hp with h₁ | h₁
    · subst h₁
      rfl
    · simp at h₁
  · decide
  · decide
  · decide
  · decide
  · decide

theorem find?_eq_some_of_unique {l : List Task} {p : Task → Bool}
    {x : Task} :
    l.countP p ≤ 1 → x ∈ l → p x = true → l.find? p = some x := by
  induction l with
  | nil =>
    intro _ hmem _
    simp at hmem
  | cons a l ih =>
    intro hc hmem hpx
    by_cases hpa : p a = true
    · rcases List.mem_cons.mp hmem with rfl | hmem₂
      · exact List.find?_cons_of_pos l hpa
      · exfalso
        have hca : List.countP p (a :: l) = List.countP p l + 1 := by
          simp [List.countP_cons, hpa]
        have h0 : l.countP p = 0 := by omega
        exact (List.countP_eq_zero.mp h0 x hmem₂) hpx
    · rw [List.find?_cons_of_neg l hpa]
      have hca : List.countP p (a :: l) = List.countP p l := by
        simp [List.countP_cons, hpa]
      rcases List.mem_cons.mp hmem with rfl | hmem₂
      · exact absurd hpx hpa
      · exact ih (by omega) hmem₂ hpx

theorem worker_id_lookup_mem {tasks : TaskTable} {pid : Nat} {t : Task}
    (h : worker_id_lookup tasks pid = some t) :
    t ∈ tasks.map Prod.snd ∧ t.metadata = Metadata.worker pid := by
  refine ⟨List.mem_of_find?_eq_some h, ?_⟩
  have hp := List.find?_some h
  simpa using hp

theorem worker_id_lookup_filter_stable {tasks : TaskTable} {n pid : Nat}
    (hwk : wellKeyed tasks)
    (hcount : (tasks.map Prod.snd).countP
      (fun t => t.metadata == Metadata.worker pid) ≤ 1)
    (hnomatch : ∀ q ∈ tasks, Prod.fst q = n →
      (Prod.snd q).metadata ≠ Metadata.worker pid) :
    worker_id_lookup (tasks.filter (fun q => q.1 != n)) pid =
      worker_id_lookup tasks pid := by
  have hsubv : List.Sublist
      ((tasks.filter (fun q => q.1 != n)).map Prod.snd)
      (tasks.map Prod.snd) := (List.filter_sublist _).map _
  cases h : worker_id_lookup tasks pid with
  | none =>
    rw [worker_id_lookup] at h ⊢
    rw [List.find?_eq_none] at h ⊢
    intro x hx
    exact h x (hsubv.subset hx)
  | some u =>
    obtain ⟨humem, humeta⟩ := worker_id_lookup_mem h
    have hu : (u.number, u) ∈ tasks := mem_values_of_mem hwk humem
    have hun : u.number ≠ n := by
      intro heq
      exact hnomatch (u.number, u) hu heq humeta
    have humem₂ : u ∈ (tasks.filter (fun q => q.1 != n)).map Prod.snd :=
      List.mem_map_of_mem Prod.snd
        (List.mem_filter.mpr ⟨hu, by simp [hun]⟩)
    rw [worker_id_lookup]
    exact find?_eq_some_of_unique
      (le_trans (hsubv.countP_le _) hcount) humem₂ (by simp [humeta])

theorem handle_expirations_spec (exps : List (Nat × Int)) :
    ∀ tasks tasks₀ : TaskTable, wellKeyed tasks →
    (tasks.map Prod.fst).Nodup →
    (∀ pid, (tasks.map Prod.snd).countP
      (fun t => t.metadata == Metadata.worker pid) ≤ 1) →
    (exps.map Prod.fst).Nodup →
    (∀ e ∈ exps, worker_id_lookup tasks e.1 = worker_id_lookup tasks₀ e.1) →
    (handle_expirations tasks exps).2 =
      exps.filterMap (fun e => (worker_id_lookup tasks₀ e.1).map
        (fun t => (t, Outcome.processExpired e.2))) := by
  induction exps with
  | nil =>
    intro tasks tasks₀ _ _ _ _ _
    rfl
  | cons e rest ih =>
    intro tasks tasks₀ hwk hnd hcount hpnd hleq
    simp only [List.map_cons, List.nodup_cons] at hpnd
    have hhead := hleq e (List.mem_cons_self _ _)
    cases h : worker_id_lookup tasks e.1 with
    | none =>
      have h₀ : worker_id_lookup tasks₀ e.1 = Option.none :=
        hhead.symm.trans h
      simp only [handle_expirations, handle_worker_expiration, h]
      rw [ih tasks tasks₀ hwk hnd hcount hpnd.2
        (fun ex hex => hleq ex (List.mem_cons_of_mem _ hex))]
      simp [List.filterMap_cons, h₀]
    | some t₀ =>
      have h₀ : worker_id_lookup tasks₀ e.1 = some t₀ := hhead.symm.trans h
      obtain ⟨htv, htmeta⟩ := worker_id_lookup_mem h
      have htmem : (t₀.number, t₀) ∈ tasks := mem_values_of_mem hwk htv
      have hget : dictGet tasks t₀.number = some t₀ :=
        dictGet_of_mem_nodup htmem hnd
      have hstep : task_done tasks t₀.number (Outcome.processExpired e.2) =
          (tasks.filter (fun q => q.1 != t₀.number),
           some (t₀, Outcome.processExpired e.2)) := by
        rw [task_done_present hget, eraseP_key_eq_filter hnd]
      have hsub : List.Sublist (tasks.filter (fun q => q.1 != t₀.number))
          tasks := List.filter_sublist _
      have hwk₂ := wellKeyed_sublist hsub hwk
      have hnd₂ := List.Nodup.sublist (hsub.map Prod.fst) hnd
      have hcount₂ : ∀ pid,
          ((tasks.filter (fun q => q.1 != t₀.number)).map
            Prod.snd).countP
            (fun t => t.metadata == Metadata.worker pid) ≤ 1 :=
        fun pid => le_trans ((hsub.map Prod.snd).countP_le _) (hcount pid)
      have hleq₂ : ∀ ex ∈ rest,
          worker_id_lookup (tasks.filter (fun q => q.1 != t₀.number))
            ex.1 = worker_id_lookup tasks₀ ex.1 := by
        intro ex hex
        have hne : ex.1 ≠ e.1 := by
          intro heq
          exact hpnd.1 (heq ▸ List.mem_map_of_mem Prod.fst hex)
        have hnomatch : ∀ q ∈ tasks, Prod.fst q = t₀.number →
            (Prod.snd q).metadata ≠ Metadata.worker ex.1 := by
          intro q hq hqn hqm
          have hdq : dictGet tasks (Prod.fst q) = some (Prod.snd q) :=
            dictGet_of_mem_nodup hq hnd
          rw [hqn] at hdq
          have hq2 : Prod.snd q = t₀ := by
            have := hdq.symm.trans hget
            simpa using this
          rw [hq2, htmeta] at hqm
          exact hne (Metadata.worker.injEq _ _ ▸ hqm).symm
        rw [worker_id_lookup_filter_stable hwk (hcount ex.1) hnomatch]
        exact hleq ex (List.mem_cons_of_mem _ hex)
      simp only [handle_expirations, handle_worker_expiration, h, hstep]
      rw [ih (tasks.filter (fun q => q.1 != t₀.number)) tasks₀ hwk₂ hnd₂
        hcount₂ hpnd.2 hleq₂]
      simp [List.filterMap_cons, h₀]

theorem create_workers_length (workers_number : Nat) (fresh : List Nat)
    (workers : WorkerTable) (hwn : workers.length ≤ workers_number)
    (hfresh : workers_number - workers.length ≤ fresh.length) :
    (create_workers workers_number fresh workers).length =
      workers_number := by
  simp only [create_workers, List.length_append, List.length_map,
    List.length_take]
  omega

/-- C7: for every worker evicted by `inspect_workers` with a nonzero
exit code, `update_workers` looks up the task whose `_metadata` stores
that worker's pid (in the pre-state task table) and resolves it with a
`ProcessExpired` outcome carrying the exit code; an expiration whose
pid matches no task contributes nothing (the `LookupError` is
swallowed); and `create_workers` then re-provisions the worker table
to exactly the configured worker count.  Hypotheses: the task table is
well-keyed with unique keys, at most one outstanding task is claimed
per worker pid, worker pids are unique, the table is not above the
configured count, and enough fresh pids are available. -/
theorem update_workers_spec (workers_number : Nat) (fresh : List Nat)
    (tasks : TaskTable) (workers : WorkerTable)
    (hwk : wellKeyed tasks) (hnd : (tasks.map Prod.fst).Nodup)
    (hcount : ∀ pid, (tasks.map Prod.snd).countP
      (fun t => t.metadata == Metadata.worker pid) ≤ 1)
    (hpids : (workers.map Worker.pid).Nodup)
    (hwn : workers.length ≤ workers_number)
    (hfresh : workers_number ≤ fresh.length) :
    (update_workers workers_number fresh tasks workers).2.2 =
      (inspect_workers workers).2.filterMap
        (fun e => (worker_id_lookup tasks e.1).map
          (fun t => (t, Outcome.processExpired e.2))) ∧
    (update_workers workers_number fresh tasks workers).2.1.length =
      workers_number := by
  constructor
  · have hsubw : List.Sublist ((workers.filter (fun w => !w.alive)).filter
        (fun w => decide (w.exitcode ≠ 0))) workers :=
      List.Sublist.trans (List.filter_sublist _) (List.filter_sublist _)
    have hmapeq : (inspect_workers workers).2.map Prod.fst =
        ((workers.filter (fun w => !w.alive)).filter
          (fun w => decide (w.exitcode ≠ 0))).map Worker.pid := by
      simp only [inspect_workers, List.map_map]
      rfl
    have hexpnd : ((inspect_workers workers).2.map Prod.fst).Nodup := by
      rw [hmapeq]
      exact List.Nodup.sublist (hsubw.map Worker.pid) hpids
    exact handle_expirations_spec (inspect_workers workers).2 tasks tasks
      hwk hnd hcount hexpnd (fun _ _ => rfl)
  · show (create_workers workers_number fresh
      (workers.filter (fun w => w.alive))).length = workers_number
    apply create_workers_length
    · exact le_trans (List.length_filter_le _ _) hwn
    · omega

/-- Witness for C7: worker 5 died with exit code 3 while owning task 1,
worker 6 is alive; the pool is configured for two workers with fresh
pids available.  Task 1 is resolved with `ProcessExpired 3` and the
worker table is back to two entries. -/
theorem update_workers_spec_witness :
    (update_workers 2 [10, 11]
        [(1, Task.mk 1 ⟨0, [], []⟩ 0 false true (Metadata.worker 5) 0)]
        [Worker.mk 5 false 3, Worker.mk 6 true 0]).2.2 =
      [(Task.mk 1 ⟨0, [], []⟩ 0 false true (Metadata.worker 5) 0,
        Outcome.processExpired 3)] ∧
    (update_workers 2 [10, 11]
        [(1, Task.mk 1 ⟨0, [], []⟩ 0 false true (Metadata.worker 5) 0)]
        [Worker.mk 5 false 3, Worker.mk 6 true 0]).2.1.length = 2 := by
  have h := update_workers_spec 2 [10, 11]
    [(1, Task.mk 1 ⟨0, [], []⟩ 0 false true (Metadata.worker 5) 0)]
    [Worker.mk 5 false 3, Worker.mk 6 true 0]
    (by
      intro p hp
      rcases List.mem_cons.mp hp with h₁ | h₁
      · subst h₁
        rfl
      · simp at h₁)
    (by decide)
    (by
      intro pid
      exact le_trans (List.countP_le_length _) (by decide))
    (by decide) (by decide) (by decide)
  exact ⟨h.1.trans (by decide), h.2⟩

/-- C8: on each worker's program-order event trace, for any task limit
and any incoming tasks: every `Acknowledgement` is sent while the
channel lock is held (`task_transaction` sends it inside
`with channel.lock:`), every `Results` send for a task id is preceded
by this worker's `Acknowledgement` send for the same id, and every
`Results` value is the output of a payload executed earlier in the
trace — so on the worker's send sequence the Acknowledgement for a
task strictly precedes its Results, which is sent only after
execution. -/
theorem worker_ack_before_results (pid : Nat) (execute : Payload → Outcome)
    (task_limit : Nat) (incoming : List TaskMsg) :
    acks_locked false
      (worker_process_events pid execute task_limit incoming) = true ∧
    acks_before_results pid []
      (worker_process_events pid execute task_limit incoming) = true ∧
    results_follow_execution execute []
      (worker_process_events pid execute task_limit incoming) = true :=
  ⟨acks_locked_flatMap pid execute _ false,
   acks_before_results_flatMap pid execute _ [],
   results_follow_execution_flatMap pid execute _ []⟩

end Pebble
